import Mathlib

/-!
Verification of the tag-input parsing core (`src/components/tag-input/util.ts`).

JavaScript strings are modelled as lists of characters (`Str`), so that
`indexOf`, `slice`, `startsWith`, `split(" ")` and `Array.prototype.join`
become directly definable list operations with the same semantics (for the
BMP/ASCII inputs of interest, one `Char` per UTF-16 code unit).
JavaScript objects used as string-keyed records are modelled as association
lists with unique keys preserving insertion order, matching the enumeration
order of string keys in JS objects.
-/

namespace TagInput

/-- A JavaScript string, as its sequence of characters. -/
abbrev Str := List Char

/-- Shorthand turning a Lean string literal into the `Str` model. -/
def chars (x : String) : Str := x.toList

/-- `TagDuplicateHandling` from `types.ts`: `"overwrite" | "array" | "join"`. -/
inductive TagDuplicateHandling where
  | overwrite
  | array
  | join
deriving DecidableEq, Repr

/-- `TagValue` from `types.ts`: a bare string, or an array of strings
(only produced by the `array` handling mode). -/
inductive TagValue where
  | str (s : Str)
  | arr (xs : List Str)
deriving DecidableEq, Repr

/-- `TagOptionConfig` from `types.ts`: a descriptor with a tag name, a
duplicate-handling type, and (meaningful only for `join`) an optional
separator.  The TS discriminated union only carries `separator` on the
`join` variant; here `separator` is an `Option` field read only when
`type = join`, exactly as the code does. -/
structure TagOptionConfig where
  tag : Str
  type : TagDuplicateHandling
  separator : Option Str
deriving DecidableEq, Repr

/-- `TagOption` from `types.ts`: either a bare tag name (a plain string)
or a full config object. -/
inductive TagOption where
  | bare (s : Str)
  | cfg (c : TagOptionConfig)
deriving DecidableEq, Repr

/-- The tag field map `Record<T, TagValue>`: an insertion-ordered
association list with unique keys. -/
abbrev Fields := List (Str × TagValue)

/-- JS `tag in fields` / `fields[tag]` read: the value at the first entry
whose key equals `k`, if any. -/
def Fields.get (fs : Fields) (k : Str) : Option TagValue :=
  match fs.find? (fun p => p.1 == k) with
  | some p => some p.2
  | none => none

/-- JS `fields[tag] = v` assignment on a unique-key record: replace the
value in place if the key exists, otherwise append the new key at the end
(JS objects keep first-insertion order for string keys). -/
def Fields.set : Fields → Str → TagValue → Fields
  | [], k, v => [(k, v)]
  | (k', v') :: rest, k, v =>
      if k' == k then (k, v) :: rest else (k', v') :: Fields.set rest k v

/-- JS `Array.prototype.join(sep)` on a list of strings. -/
def joinSep (sep : Str) : List Str → Str
  | [] => []
  | [w] => w
  | w :: x :: ws => w ++ sep ++ joinSep sep (x :: ws)

/-- `updateTagValue` (util.ts lines 19-48): merge a newly seen `value` for
`tag` into `fields` according to the duplicate-handling strategy. -/
def updateTagValue (fields : Fields) (tag : Str) (value : Str)
    (handlingType : TagDuplicateHandling) (separator : Str) : Fields :=
  match fields.get tag with
  | some prior =>
      match handlingType with
      | .overwrite => fields.set tag (.str value)
      | .array =>
          fields.set tag
            (match prior with
             | .arr xs => .arr (xs ++ [value])
             | .str a => .arr [a, value])
      | .join =>
          fields.set tag
            (match prior with
             | .str a => .str (a ++ separator ++ value)
             | .arr xs => .str (joinSep separator xs ++ separator ++ value))
  | none => fields.set tag (.str value)

/-- JS `String.prototype.indexOf` for a single character: index of the
first occurrence, `-1` when absent. -/
def jsIndexOf (s : Str) (c : Char) : Int :=
  match s.findIdx? (· = c) with
  | some i => (i : Int)
  | none => -1

/-- Result record of the two word-processing helpers:
`{ fields, detected, isTag }`. -/
structure ProcResult where
  fields : Fields
  detected : List Str
  isTag : Bool
deriving DecidableEq, Repr

/-- `processDynamicTag` (util.ts lines 61-91): with an empty registry, a
word is a tag occurrence iff its first colon sits at an index `> 0`; the
name is everything before that colon, the value everything after. -/
def processDynamicTag (word : Str) (fields : Fields) (detected : List Str)
    (defaultDuplicateHandling : TagDuplicateHandling)
    (defaultSeparator : Str) : ProcResult :=
  let colonIndex := jsIndexOf word ':'
  if colonIndex > 0 then
    let tag := word.take colonIndex.toNat
    let value := word.drop (colonIndex.toNat + 1)
    let updatedFields :=
      updateTagValue fields tag value defaultDuplicateHandling defaultSeparator
    let updatedDetected :=
      if detected.contains tag then detected else detected ++ [tag]
    ⟨updatedFields, updatedDetected, true⟩
  else
    ⟨fields, detected, false⟩

/-- JS `word.startsWith(p)`. -/
def strStartsWith (word p : Str) : Bool :=
  word.take p.length == p

/-- The tag name of a `TagOption` (`option` when a bare string, else
`option.tag`). -/
def optTag : TagOption → Str
  | .bare s => s
  | .cfg c => c.tag

/-- The handling strategy a matched option selects (util.ts lines
127-130): the default for a bare name, else the config's `type`. -/
def optHandling (defaultDuplicateHandling : TagDuplicateHandling) :
    TagOption → TagDuplicateHandling
  | .bare _ => defaultDuplicateHandling
  | .cfg c => c.type

/-- The separator a matched option selects (util.ts lines 131-136):
`keyWordMatch.type === "join" && keyWordMatch.separator ? keyWordMatch.separator
: defaultSeparator`; a present-but-empty separator is falsy in JS, so it
falls back to the default. -/
def optSeparator (defaultSeparator : Str) : TagOption → Str
  | .bare _ => defaultSeparator
  | .cfg c =>
      match c.separator with
      | some s =>
          if c.type = .join ∧ s ≠ [] then s else defaultSeparator
      | none => defaultSeparator

/-- `processPredefinedTag` (util.ts lines 105-156): with a non-empty
registry, find the first option whose `name:`-prefix the word starts
with; on a match, the remainder of the word is the value and the matched
option's handling/separator govern the merge. -/
def processPredefinedTag (word : Str) (tagOptions : List TagOption)
    (fields : Fields) (detected : List Str)
    (defaultDuplicateHandling : TagDuplicateHandling)
    (defaultSeparator : Str) : ProcResult :=
  let keyWordMatch :=
    tagOptions.find? (fun option => strStartsWith word (optTag option ++ [':']))
  match keyWordMatch with
  | some m =>
      let tag := optTag m
      let value := word.drop (tag.length + 1)
      let handlingType := optHandling defaultDuplicateHandling m
      let separator := optSeparator defaultSeparator m
      let updatedFields := updateTagValue fields tag value handlingType separator
      let updatedDetected :=
        if detected.contains tag then detected else detected ++ [tag]
      ⟨updatedFields, updatedDetected, true⟩
  | none => ⟨fields, detected, false⟩

/-- JS `inputValue.split(" ")`: split on every single space character;
consecutive spaces yield empty tokens, and the empty string yields one
empty token. -/
def splitOnSpace : Str → List Str
  | [] => [[]]
  | c :: rest =>
      if c = ' ' then [] :: splitOnSpace rest
      else
        match splitOnSpace rest with
        | [] => [[c]]
        | w :: ws => (c :: w) :: ws

/-- The structured parse output `TagInputValue`:
`{ default: string, tags: Record<T, TagValue> }`. -/
structure TagInputValue where
  default : Str
  tags : Fields
deriving DecidableEq, Repr

/-- The full return value of `parseInputText`:
`{ parsedOutput, detectedTags }`. -/
structure ParseOut where
  parsedOutput : TagInputValue
  detectedTags : List Str
deriving DecidableEq, Repr

/-- The `for (const word of words)` loop body of `parseInputText`
(util.ts lines 182-217), as structural recursion over the word list.
The loop reassigns `fields` from each helper result (lines 194, 207) but
never reassigns `detected`: the helpers receive the enclosing `detected`
unchanged on every iteration, so it is a fixed parameter here. -/
def parseLoop (tagOptions : List TagOption)
    (defaultDuplicateHandling : TagDuplicateHandling)
    (defaultSeparator : Str) (detected : List Str) :
    List Str → Fields → List Str → Fields × List Str
  | [], fields, defaultText => (fields, defaultText)
  | word :: rest, fields, defaultText =>
      let result :=
        if tagOptions.length = 0 then
          processDynamicTag word fields detected defaultDuplicateHandling
            defaultSeparator
        else
          processPredefinedTag word tagOptions fields detected
            defaultDuplicateHandling defaultSeparator
      let defaultText' :=
        if result.isTag then defaultText else defaultText ++ [word]
      parseLoop tagOptions defaultDuplicateHandling defaultSeparator detected
        rest result.fields defaultText'

/-- `parseInputText` (util.ts lines 168-226): split the input on spaces,
classify each word, accumulate tag values and non-tag words, and return
`{ parsedOutput: { default, tags }, detectedTags }`.  As in the source,
the returned `detectedTags` is the local `detected` array, which the loop
never updates. -/
def parseInputText (inputValue : Str) (tagOptions : List TagOption)
    (defaultDuplicateHandling : TagDuplicateHandling)
    (defaultSeparator : Str) : ParseOut :=
  let detected : List Str := []
  let words := splitOnSpace inputValue
  let st := parseLoop tagOptions defaultDuplicateHandling defaultSeparator
    detected words [] []
  { parsedOutput :=
      { default := joinSep [' '] st.2, tags := st.1 },
    detectedTags := detected }

end TagInput

namespace TagInput

/-! ### Helper lemmas about the record model -/

theorem get_set_self (fs : Fields) (k : Str) (v : TagValue) :
    (fs.set k v).get k = some v := by
  induction fs with
  | nil => simp [Fields.set, Fields.get, List.find?]
  | cons p rest ih =>
    obtain ⟨k', v'⟩ := p
    by_cases h : k' = k
    · subst h
      simp [Fields.set, Fields.get, List.find?]
    · have hbeq : (k' == k) = false := by
        simpa using h
      simp only [Fields.set, hbeq, if_false, cond_false]
      simpa [Fields.get, List.find?, hbeq] using ih

theorem updateTagValue_overwrite_get (fields : Fields) (tag value sep : Str) :
    (updateTagValue fields tag value .overwrite sep).get tag =
      some (.str value) := by
  unfold updateTagValue
  cases fields.get tag <;> simp [get_set_self]

end TagInput

namespace TagInput

/-- C5: under OVERWRITE handling, updating a tag always leaves the newest
occurrence's value (a bare string) as the accumulated value, discarding
any prior value; parsing `"name:Alice name:Bob"` with an OVERWRITE
descriptor for `name` yields `tags.name = "Bob"`. -/
theorem overwrite_mode_last_wins (fields : Fields) (tag value sep : Str) :
    (updateTagValue fields tag value .overwrite sep).get tag =
        some (.str value)
    ∧ (parseInputText (chars "name:Alice name:Bob")
        [.cfg ⟨chars "name", .overwrite, none⟩] .overwrite
        (chars ", ")).parsedOutput.tags =
      [(chars "name", .str (chars "Bob"))] :=
  ⟨updateTagValue_overwrite_get fields tag value sep, by decide⟩

/-- C2: under ARRAY handling, a first occurrence stores the bare string,
a second occurrence promotes it to the two-element list, and each later
occurrence appends; parsing `"title:A title:B title:C"` with an ARRAY
descriptor yields `["A","B","C"]` while `"title:A"` alone yields the bare
string `"A"`. -/
theorem array_mode_accumulation (fields : Fields) (tag value sep : Str) :
    (fields.get tag = none →
      (updateTagValue fields tag value .array sep).get tag =
        some (.str value))
    ∧ (∀ a, fields.get tag = some (.str a) →
      (updateTagValue fields tag value .array sep).get tag =
        some (.arr [a, value]))
    ∧ (∀ xs, fields.get tag = some (.arr xs) →
      (updateTagValue fields tag value .array sep).get tag =
        some (.arr (xs ++ [value])))
    ∧ (parseInputText (chars "title:A title:B title:C")
        [.cfg ⟨chars "title", .array, none⟩] .overwrite
        (chars ", ")).parsedOutput.tags =
      [(chars "title", .arr [chars "A", chars "B", chars "C"])]
    ∧ (parseInputText (chars "title:A")
        [.cfg ⟨chars "title", .array, none⟩] .overwrite
        (chars ", ")).parsedOutput.tags =
      [(chars "title", .str (chars "A"))] := by
  refine ⟨?_, ?_, ?_, by decide, by decide⟩
  · intro h
    simp only [updateTagValue, h]
    exact get_set_self fields tag _
  · intro a h
    simp only [updateTagValue, h]
    exact get_set_self fields tag _
  · intro xs h
    simp only [updateTagValue, h]
    exact get_set_self fields tag _

/-- C2 witness: instantiating the ARRAY accumulation theorem at an empty
field map and a concrete tag and value. -/
theorem array_mode_accumulation_applied :
    (updateTagValue [] (chars "title") (chars "A") .array
      (chars ", ")).get (chars "title") = some (.str (chars "A")) :=
  (array_mode_accumulation [] (chars "title") (chars "A")
    (chars ", ")).1 (by decide)

/-- C3: under JOIN handling, a first occurrence stores the bare string,
a later occurrence appends `separator + new` to the prior string, and a
prior list value is first flattened by joining with the same separator;
parsing `"label:x label:y"` with a JOIN descriptor whose separator is
`" | "` yields `"x | y"`. -/
theorem join_mode_accumulation (fields : Fields) (tag value sep : Str) :
    (fields.get tag = none →
      (updateTagValue fields tag value .join sep).get tag =
        some (.str value))
    ∧ (∀ a, fields.get tag = some (.str a) →
      (updateTagValue fields tag value .join sep).get tag =
        some (.str (a ++ sep ++ value)))
    ∧ (∀ xs, fields.get tag = some (.arr xs) →
      (updateTagValue fields tag value .join sep).get tag =
        some (.str (joinSep sep xs ++ sep ++ value)))
    ∧ (parseInputText (chars "label:x label:y")
        [.cfg ⟨chars "label", .join, some (chars " | ")⟩] .overwrite
        (chars ", ")).parsedOutput.tags =
      [(chars "label", .str (chars "x | y"))] := by
  refine ⟨?_, ?_, ?_, by decide⟩
  · intro h
    simp only [updateTagValue, h]
    exact get_set_self fields tag _
  · intro a h
    simp only [updateTagValue, h]
    exact get_set_self fields tag _
  · intro xs h
    simp only [updateTagValue, h]
    exact get_set_self fields tag _

/-- C3 witness: instantiating the JOIN accumulation theorem at a field
map already holding a bare string for the tag. -/
theorem join_mode_accumulation_applied :
    (updateTagValue [(chars "label", .str (chars "x"))] (chars "label")
      (chars "y") .join (chars " | ")).get (chars "label") =
      some (.str (chars "x | y")) :=
  (join_mode_accumulation [(chars "label", .str (chars "x"))]
    (chars "label") (chars "y") (chars " | ")).2.1 (chars "x") (by decide)

end TagInput

namespace TagInput

/-! ### Helper lemmas about colon search -/

theorem findIdx_colon_isSome (w : Str) :
    (w.findIdx? (· = ':')).isSome = true ↔ ':' ∈ w := by
  rw [← Option.ne_none_iff_isSome, ne_eq, List.findIdx?_eq_none_iff]
  constructor
  · intro h
    by_contra hmem
    exact h (fun x hx => by
      by_cases hx' : x = ':'
      · exact absurd (hx' ▸ hx) hmem
      · simpa using hx')
  · intro hmem h
    simpa using h ':' hmem

theorem findIdx_colon_append (pre post : Str) (h : ':' ∉ pre) :
    ((pre ++ ':' :: post).findIdx? (· = ':')) = some pre.length := by
  induction pre with
  | nil => simp [List.findIdx?_cons]
  | cons a pre' ih =>
    have ha : a ≠ ':' := fun hc => h (hc ▸ List.mem_cons_self a pre')
    have h' : ':' ∉ pre' := fun hc => h (List.mem_cons_of_mem a hc)
    simp only [List.cons_append, List.findIdx?_cons, decide_eq_true_eq, ha,
      if_false, List.findIdx?_succ, ih h', Option.map_some']
    rfl

theorem jsIndexOf_colon_pos_iff (w : Str) :
    jsIndexOf w ':' > 0 ↔ (':' ∈ w ∧ w.head? ≠ some ':') := by
  cases w with
  | nil => simp [jsIndexOf, List.findIdx?]
  | cons c rest =>
    by_cases hc : c = ':'
    · subst hc
      simp [jsIndexOf, List.findIdx?_cons]
    · have hrw : (c :: rest).findIdx? (· = ':') =
          Option.map (fun i => i + 1) (rest.findIdx? (· = ':')) := by
        simp [List.findIdx?_cons, hc, List.findIdx?_succ]
      cases hfind : rest.findIdx? (· = ':') with
      | none =>
        have hmem : ':' ∉ rest := by
          have := (findIdx_colon_isSome rest).not.mp (by simp [hfind])
          exact this
        have hmem' : ':' ∉ c :: rest := by
          intro hin
          rcases List.mem_cons.mp hin with h1 | h2
          · exact hc h1.symm
          · exact hmem h2
        simp [jsIndexOf, hrw, hfind, hmem']
      | some i =>
        have hmem : ':' ∈ rest :=
          (findIdx_colon_isSome rest).mp (by simp [hfind])
        simp only [jsIndexOf, hrw, hfind, Option.map_some']
        constructor
        · intro _
          exact ⟨List.mem_cons_of_mem c hmem, by simpa using hc⟩
        · intro _
          positivity
end TagInput

namespace TagInput

/-- C4: with an empty registry, a token is a tag occurrence iff it
contains a colon and its first character is not a colon (equivalently,
its first colon is at position > 0); the name is everything before the
first colon and the value everything after it; `"foo:bar email:a@b.com"`
with registry `[]` parses to both tags and empty default text. -/
theorem dynamic_classification (word : Str) (fields : Fields)
    (detected : List Str) (dH : TagDuplicateHandling) (dS : Str) :
    ((processDynamicTag word fields detected dH dS).isTag = true ↔
      (':' ∈ word ∧ word.head? ≠ some ':'))
    ∧ (∀ pre post, word = pre ++ ':' :: post → ':' ∉ pre → pre ≠ [] →
        (processDynamicTag word fields detected dH dS).fields =
          updateTagValue fields pre post dH dS)
    ∧ (parseInputText (chars "foo:bar email:a@b.com") [] .overwrite
        (chars ", ")).parsedOutput =
      ⟨[], [(chars "foo", .str (chars "bar")),
            (chars "email", .str (chars "a@b.com"))]⟩ := by
  refine ⟨?_, ?_, by decide⟩
  · by_cases hpos : jsIndexOf word ':' > 0
    · simp only [processDynamicTag, hpos, if_true]
      simpa using (jsIndexOf_colon_pos_iff word).mp hpos
    · simp only [processDynamicTag, hpos, if_false]
      constructor
      · intro h; exact absurd h (by simp)
      · intro h; exact absurd ((jsIndexOf_colon_pos_iff word).mpr h) hpos
  · intro pre post hw hpre hne
    subst hw
    have hidx : jsIndexOf (pre ++ ':' :: post) ':' = (pre.length : Int) := by
      simp [jsIndexOf, findIdx_colon_append pre post hpre]
    have hpos : jsIndexOf (pre ++ ':' :: post) ':' > 0 := by
      rw [hidx]
      have : 0 < pre.length := List.length_pos.mpr hne
      exact_mod_cast this
    have htonat : (jsIndexOf (pre ++ ':' :: post) ':').toNat = pre.length := by
      rw [hidx]; exact Int.toNat_ofNat _
    simp only [processDynamicTag, hpos, if_true, htonat]
    have htake : (pre ++ ':' :: post).take pre.length = pre :=
      List.take_left pre (':' :: post)
    have hdrop : (pre ++ ':' :: post).drop (pre.length + 1) = post := by
      have : pre ++ ':' :: post = (pre ++ [':']) ++ post := by simp
      rw [this]
      have hlen : (pre ++ [':']).length = pre.length + 1 := by simp
      rw [← hlen]
      exact List.drop_left (pre ++ [':']) post
    rw [htake, hdrop]

/-- C4 witness: instantiating the dynamic classification theorem at the
concrete token `"foo:bar"`, decomposed around its first colon. -/
theorem dynamic_classification_applied :
    (processDynamicTag (chars "foo:bar") [] [] .overwrite
      (chars ", ")).fields =
      updateTagValue [] (chars "foo") (chars "bar") .overwrite
        (chars ", ") :=
  (dynamic_classification (chars "foo:bar") [] [] .overwrite
    (chars ", ")).2.1 (chars "foo") (chars "bar") (by decide) (by decide)
    (by decide)

/-- C1: with a non-empty registry, a token is a tag occurrence iff it
starts with `name:` for some registered name; the first matching option
in registry order governs the handling mode and separator, and the value
is the remainder after the matched prefix; `"foo:bar email:a@b.com"`
with registry `["email"]` yields only the email tag, the unmatched colon
token going to default text. -/
theorem predefined_classification (word : Str) (tagOptions : List TagOption)
    (fields : Fields) (detected : List Str) (dH : TagDuplicateHandling)
    (dS : Str) (hne : tagOptions ≠ []) :
    ((processPredefinedTag word tagOptions fields detected dH dS).isTag =
        true ↔
      ∃ o ∈ tagOptions, strStartsWith word (optTag o ++ [':']) = true)
    ∧ (∀ m,
        tagOptions.find? (fun o => strStartsWith word (optTag o ++ [':']))
            = some m →
        (processPredefinedTag word tagOptions fields detected dH dS).fields =
          updateTagValue fields (optTag m)
            (word.drop ((optTag m).length + 1)) (optHandling dH m)
            (optSeparator dS m))
    ∧ (parseInputText (chars "foo:bar email:a@b.com")
        [.bare (chars "email")] .overwrite (chars ", ")).parsedOutput =
      ⟨chars "foo:bar", [(chars "email", .str (chars "a@b.com"))]⟩ := by
  refine ⟨?_, ?_, by decide⟩
  · rw [← List.find?_isSome]
    cases hfind : tagOptions.find?
        (fun o => strStartsWith word (optTag o ++ [':'])) with
    | none => simp [processPredefinedTag, hfind]
    | some m => simp [processPredefinedTag, hfind]
  · intro m hm
    simp only [processPredefinedTag, hm]

/-- C1 witness: instantiating the predefined classification theorem on
the singleton email registry and the matching token. -/
theorem predefined_classification_applied :
    (processPredefinedTag (chars "email:a@b.com") [.bare (chars "email")]
      [] [] .overwrite (chars ", ")).isTag = true :=
  (predefined_classification (chars "email:a@b.com")
    [.bare (chars "email")] [] [] .overwrite (chars ", ")
    (by decide)).1.mpr
    ⟨.bare (chars "email"), by decide, by decide⟩

end TagInput

namespace TagInput

/-! ### Helper lemmas about the tokenizer -/

theorem splitOnSpace_ne_nil (l : Str) : splitOnSpace l ≠ [] := by
  cases l with
  | nil => simp [splitOnSpace]
  | cons c rest =>
    by_cases hc : c = ' '
    · simp [splitOnSpace, hc]
    · simp only [splitOnSpace, hc, if_false]
      cases splitOnSpace rest <;> simp

theorem joinSep_space_splitOnSpace (l : Str) :
    joinSep [' '] (splitOnSpace l) = l := by
  induction l with
  | nil => rfl
  | cons c rest ih =>
    by_cases hc : c = ' '
    · subst hc
      simp only [splitOnSpace, if_true]
      obtain ⟨w, ws, hws⟩ :
          ∃ w ws, splitOnSpace rest = w :: ws := by
        cases h : splitOnSpace rest with
        | nil => exact absurd h (splitOnSpace_ne_nil rest)
        | cons w ws => exact ⟨w, ws, rfl⟩
      rw [hws]
      rw [hws] at ih
      simpa [joinSep] using ih
    · simp only [splitOnSpace, hc, if_false]
      obtain ⟨w, ws, hws⟩ :
          ∃ w ws, splitOnSpace rest = w :: ws := by
        cases h : splitOnSpace rest with
        | nil => exact absurd h (splitOnSpace_ne_nil rest)
        | cons w ws => exact ⟨w, ws, rfl⟩
      rw [hws]
      rw [hws] at ih
      cases ws with
      | nil => simpa [joinSep] using congrArg (c :: ·) ih
      | cons w2 ws' => simpa [joinSep] using congrArg (c :: ·) ih

theorem mem_splitOnSpace_subset (l : Str) (w : Str)
    (hw : w ∈ splitOnSpace l) : ∀ c ∈ w, c ∈ l := by
  induction l generalizing w with
  | nil =>
    simp only [splitOnSpace, List.mem_singleton] at hw
    subst hw
    simp
  | cons a rest ih =>
    by_cases ha : a = ' '
    · simp only [splitOnSpace, ha, if_true, List.mem_cons] at hw
      rcases hw with h1 | h2
      · subst h1; simp
      · intro c hc
        exact List.mem_cons_of_mem a (ih w h2 c hc)
    · simp only [splitOnSpace, ha, if_false] at hw
      cases hsplit : splitOnSpace rest with
      | nil => exact absurd hsplit (splitOnSpace_ne_nil rest)
      | cons v vs =>
        rw [hsplit] at hw
        rcases List.mem_cons.mp hw with h1 | h2
        · subst h1
          intro c hc
          rcases List.mem_cons.mp hc with h3 | h4
          · exact h3 ▸ List.mem_cons_self a rest
          · exact List.mem_cons_of_mem a
              (ih v (hsplit ▸ List.mem_cons_self v vs) c h4)
        · intro c hc
          exact List.mem_cons_of_mem a
            (ih w (hsplit ▸ List.mem_cons_of_mem v h2) c hc)

/-! ### Helper lemmas about word classification -/

theorem processDynamicTag_no_colon (w : Str) (f : Fields) (d : List Str)
    (dH : TagDuplicateHandling) (dS : Str) (hn : ':' ∉ w) :
    processDynamicTag w f d dH dS = ⟨f, d, false⟩ := by
  have hpos : ¬ jsIndexOf w ':' > 0 := fun h =>
    hn ((jsIndexOf_colon_pos_iff w).mp h).1
  simp [processDynamicTag, hpos]

theorem strStartsWith_colon_mem (w p : Str)
    (h : strStartsWith w (p ++ [':']) = true) : ':' ∈ w := by
  have heq : w.take (p ++ [':']).length = p ++ [':'] := by
    simpa [strStartsWith] using h
  have hmem : ':' ∈ w.take (p ++ [':']).length := by
    rw [heq]
    simp
  exact List.take_subset _ w hmem

theorem processPredefinedTag_no_colon (w : Str) (opts : List TagOption)
    (f : Fields) (d : List Str) (dH : TagDuplicateHandling) (dS : Str)
    (hn : ':' ∉ w) :
    processPredefinedTag w opts f d dH dS = ⟨f, d, false⟩ := by
  have hfind :
      opts.find? (fun o => strStartsWith w (optTag o ++ [':'])) = none :=
    List.find?_eq_none.mpr fun o _ ho =>
      hn (strStartsWith_colon_mem w (optTag o) ho)
  simp [processPredefinedTag, hfind]

theorem parseLoop_no_colon (opts : List TagOption)
    (dH : TagDuplicateHandling) (dS : Str) (det : List Str) (ws : List Str)
    (hws : ∀ w ∈ ws, ':' ∉ w) :
    ∀ f dt, parseLoop opts dH dS det ws f dt = (f, dt ++ ws) := by
  induction ws with
  | nil => intro f dt; simp [parseLoop]
  | cons w rest ih =>
    intro f dt
    have hw : ':' ∉ w := hws w (List.mem_cons_self w rest)
    have hrest : ∀ x ∈ rest, ':' ∉ x := fun x hx =>
      hws x (List.mem_cons_of_mem w hx)
    by_cases hlen : opts.length = 0
    · simp only [parseLoop, hlen, if_true,
        processDynamicTag_no_colon w f det dH dS hw]
      have hif : (if false = true then dt else dt ++ [w]) = dt ++ [w] := by
        simp
      rw [hif, ih hrest f (dt ++ [w])]
      simp
    · simp only [parseLoop, hlen, if_false,
        processPredefinedTag_no_colon w opts f det dH dS hw]
      have hif : (if false = true then dt else dt ++ [w]) = dt ++ [w] := by
        simp
      rw [hif, ih hrest f (dt ++ [w])]
      simp

/-- C7: an input containing no colon character parses to a default text
equal to the whole input (splitting on single spaces and rejoining the
non-tag tokens with single spaces reconstructs it exactly, empty tokens
from consecutive spaces included) and an empty tag mapping, for any
registry, default mode and default separator. -/
theorem plain_text_roundtrip (input : Str) (tagOptions : List TagOption)
    (dH : TagDuplicateHandling) (dS : Str) (h : ':' ∉ input) :
    (parseInputText input tagOptions dH dS).parsedOutput.default = input
    ∧ (parseInputText input tagOptions dH dS).parsedOutput.tags = [] := by
  have hw : ∀ w ∈ splitOnSpace input, ':' ∉ w := fun w hwmem hc =>
    h (mem_splitOnSpace_subset input w hwmem ':' hc)
  have hloop :=
    parseLoop_no_colon tagOptions dH dS [] (splitOnSpace input) hw [] []
  constructor
  · show joinSep [' ']
        (parseLoop tagOptions dH dS [] (splitOnSpace input) [] []).2 = input
    rw [hloop]
    simpa using joinSep_space_splitOnSpace input
  · show (parseLoop tagOptions dH dS [] (splitOnSpace input) [] []).1 = []
    rw [hloop]

/-- C7 witness: the colon-free input `"hello  world"` (with a double
space) round-trips through the parser unchanged. -/
theorem plain_text_roundtrip_applied :
    (parseInputText (chars "hello  world") [] .overwrite
        (chars ", ")).parsedOutput.default = chars "hello  world"
    ∧ (parseInputText (chars "hello  world") [] .overwrite
        (chars ", ")).parsedOutput.tags = [] :=
  plain_text_roundtrip (chars "hello  world") [] .overwrite (chars ", ")
    (by decide)

end TagInput

namespace TagInput

/-! ### Word classification as a predicate, and the parse partition -/

/-- The classification a single word receives inside the parse loop:
with an empty registry, a colon at index `> 0`; otherwise, a successful
registry prefix search.  Extracted verbatim from the branch conditions
of `processDynamicTag` and `processPredefinedTag`. -/
def wordIsTag (tagOptions : List TagOption) (word : Str) : Bool :=
  if tagOptions.length = 0 then decide (jsIndexOf word ':' > 0)
  else
    (tagOptions.find?
      (fun o => strStartsWith word (optTag o ++ [':']))).isSome

theorem processDynamicTag_isTag (w : Str) (f : Fields) (d : List Str)
    (dH : TagDuplicateHandling) (dS : Str) :
    (processDynamicTag w f d dH dS).isTag = decide (jsIndexOf w ':' > 0) := by
  by_cases h : jsIndexOf w ':' > 0 <;> simp [processDynamicTag, h]

theorem processPredefinedTag_isTag (w : Str) (opts : List TagOption)
    (f : Fields) (d : List Str) (dH : TagDuplicateHandling) (dS : Str) :
    (processPredefinedTag w opts f d dH dS).isTag =
      (opts.find? (fun o => strStartsWith w (optTag o ++ [':']))).isSome := by
  unfold processPredefinedTag
  cases opts.find? (fun o => strStartsWith w (optTag o ++ [':'])) <;> simp

theorem parseLoop_defaultText (opts : List TagOption)
    (dH : TagDuplicateHandling) (dS : Str) (det : List Str)
    (ws : List Str) :
    ∀ f dt, (parseLoop opts dH dS det ws f dt).2 =
      dt ++ ws.filter (fun w => !(wordIsTag opts w)) := by
  induction ws with
  | nil => intro f dt; simp [parseLoop]
  | cons w rest ih =>
    intro f dt
    by_cases hlen : opts.length = 0
    · have htag : (processDynamicTag w f det dH dS).isTag =
          wordIsTag opts w := by
        rw [processDynamicTag_isTag, wordIsTag, if_pos hlen]
      simp only [parseLoop, hlen, if_true]
      rw [htag]
      cases hcl : wordIsTag opts w
      · rw [if_neg (by simp), ih]
        simp [hcl]
      · rw [if_pos rfl, ih]
        simp [hcl]
    · have htag : (processPredefinedTag w opts f det dH dS).isTag =
          wordIsTag opts w := by
        rw [processPredefinedTag_isTag, wordIsTag, if_neg hlen]
      simp only [parseLoop, hlen, if_false]
      rw [htag]
      cases hcl : wordIsTag opts w
      · rw [if_neg (by simp), ih]
        simp [hcl]
      · rw [if_pos rfl, ih]
        simp [hcl]

/-- C8: parsing is total — it is defined for every input string, registry,
default mode and default separator, and returns a complete result in
which the default text collects exactly the tokens the classifier
rejects; stray colons degrade to default text and empty remainders to an
empty-string value, never to an error. -/
theorem parse_total_partition (input : Str) (tagOptions : List TagOption)
    (dH : TagDuplicateHandling) (dS : Str) :
    ((parseInputText input tagOptions dH dS).parsedOutput.default =
      joinSep [' ']
        ((splitOnSpace input).filter (fun w => !(wordIsTag tagOptions w))))
    ∧ (parseInputText (chars ":stray") [] .overwrite
        (chars ", ")).parsedOutput = ⟨chars ":stray", []⟩
    ∧ (parseInputText (chars "email:") [.bare (chars "email")] .overwrite
        (chars ", ")).parsedOutput = ⟨[], [(chars "email", .str [])]⟩ := by
  refine ⟨?_, by decide, by decide⟩
  show joinSep [' ']
      (parseLoop tagOptions dH dS [] (splitOnSpace input) [] []).2 = _
  rw [parseLoop_defaultText tagOptions dH dS [] (splitOnSpace input) [] []]
  rfl

/-- C9: for a JOIN descriptor, the separator actually used is the
descriptor's own separator only when it is present and non-empty (JS
truthiness); a present-but-empty separator falls back to the
caller-supplied default, as does an absent one — so `"label:x label:y"`
with separator `""` and default `", "` joins to `"x, y"`. -/
theorem join_separator_truthiness (t dS : Str) :
    (∀ s : Str, optSeparator dS (.cfg ⟨t, .join, some s⟩) =
      if s = [] then dS else s)
    ∧ optSeparator dS (.cfg ⟨t, .join, none⟩) = dS
    ∧ (parseInputText (chars "label:x label:y")
        [.cfg ⟨chars "label", .join, some []⟩] .overwrite
        (chars ", ")).parsedOutput.tags =
      [(chars "label", .str (chars "x, y"))] := by
  refine ⟨?_, rfl, by decide⟩
  intro s
  by_cases hs : s = []
  · subst hs; simp [optSeparator]
  · simp [optSeparator, hs]

/-- C6 (code evaluation): `parseInputText` returns its local `detected`
array, which the word loop never updates, so the returned `detectedTags`
is `[]` for every input — in particular `"b:1 a:2 b:3"` with an empty
registry yields `[]`, not the first-seen order `["b", "a"]`. -/
theorem detected_tags_always_empty :
    (∀ (input : Str) (tagOptions : List TagOption)
        (dH : TagDuplicateHandling) (dS : Str),
      (parseInputText input tagOptions dH dS).detectedTags = [])
    ∧ (parseInputText (chars "b:1 a:2 b:3") [] .overwrite
        (chars ", ")).detectedTags ≠ [chars "b", chars "a"] :=
  ⟨fun _ _ _ _ => rfl, by decide⟩

/-- C10 (code evaluation): on input `"a:1"` with an empty registry the
tags mapping has the key `"a"` while `detectedTags` is empty, so the key
set of `tags` differs from the set of names in `detectedTags`. -/
theorem tags_keys_detected_mismatch :
    (parseInputText (chars "a:1") [] .overwrite
        (chars ", ")).parsedOutput.tags.map Prod.fst = [chars "a"]
    ∧ (parseInputText (chars "a:1") [] .overwrite
        (chars ", ")).detectedTags = [] := by
  decide

end TagInput
